import Mathlib

/-!
Verification development for the core of `WorldeSimulator/worldle.py`:
the frequency-table builders, the feedback evaluator, the candidate
filter, the word scorer, and the game-simulation loop.

Modelling conventions:
* a word is a `List Char` (a Python `str` used as a sequence of characters);
* the Python dicts built by the statistics functions are association lists
  whose keys appear in first-insertion order (the insertion order of
  `collections.Counter`); `dict.get(k, 0)` is `lookup0`;
* Python floats are modelled by `ℚ`: every value the program produces is a
  ratio of integer counts, and no claim concerns rounding;
* Python sets (`gray`, `used_guesses`) are duplicate-free lists; only
  membership in them is ever observed;
* out-of-range string indexing (`word[i]`), which raises `IndexError` in
  Python, is modelled by `List.getD _ _ ' '`; all call sites inside the
  simulation stay in range for equal-length words;
* the `while True:` loop of `simulate_game_stats` is modelled with an
  explicit fuel argument initialised to `max_attempts`; the loop body
  returns through the attempt-budget check strictly before the fuel can
  run out, so the fuel-exhaustion branch is unreachable from
  `simulate_game_stats`;
* each `return` statement of `simulate_game_stats` prints a distinct
  message; the `ExitTag` component of the result records which return
  statement produced the result, making the distinct outcomes observable.
-/

/-- The distinct elements of `l` in order of first occurrence, mirroring the
key-insertion order of a Python `Counter`/`dict` built by iteration. -/
def firstOccs {α : Type} [DecidableEq α] (l : List α) : List α :=
  l.foldl (fun acc a => if a ∈ acc then acc else acc ++ [a]) []

abbrev Word := List Char

/-- `get_letter_probs(words)`: global single-letter frequency table over all
letter occurrences of all words (`worldle.py` lines 15-19). -/
def get_letter_probs (words : List Word) : List (Char × ℚ) :=
  let all_letters := words.flatten
  (firstOccs all_letters).map fun ch =>
    (ch, (all_letters.count ch : ℚ) / (all_letters.length : ℚ))

/-- The contiguous length-`n` windows `word[i:i+n]` for
`i in range(len(word) - n + 1)`; empty when the word is shorter than `n`,
as the Python `range` is then empty. -/
def windows (w : Word) (n : Nat) : List Word :=
  (List.range (w.length + 1 - n)).map fun i => (w.drop i).take n

/-- `get_ngram_probs(words, n)`: frequency of each contiguous n-gram across
all sliding windows of all words (`worldle.py` lines 21-27). -/
def get_ngram_probs (words : List Word) (n : Nat) : List (Word × ℚ) :=
  let ngrams := (words.map fun w => windows w n).flatten
  (firstOccs ngrams).map fun g => (g, (ngrams.count g : ℚ) / (ngrams.length : ℚ))

/-- `get_positional_probs(words)`: five per-position letter-frequency tables
(`worldle.py` lines 29-38).  Words shorter than five letters simply do not
contribute to the later positions, mirroring `enumerate(word)`. -/
def get_positional_probs (words : List Word) : List (List (Char × ℚ)) :=
  (List.range 5).map fun i =>
    let letters := words.filterMap fun w => w.get? i
    (firstOccs letters).map fun ch =>
      (ch, (letters.count ch : ℚ) / (letters.length : ℚ))

/-- The loop body of `get_feedback`, recursing over the positions of the
guess.  `rest` is the suffix of `guess` starting at position `i`; the whole
`guess` and `actual` are kept for the `guess.count(ch)`/`actual.count(ch)`
comparison.  The gray component models the Python set by a duplicate-free
list. -/
def fb_aux (guess actual : Word) : Word → Nat → List (Nat × Char) × List (Char × Nat) × List Char
  | [], _ => ([], [], [])
  | ch :: rest, i =>
    let p := fb_aux guess actual rest (i + 1)
    if actual.getD i ' ' = ch then ((i, ch) :: p.1, p.2.1, p.2.2)
    else if ch ∈ actual then
      if guess.count ch ≤ actual.count ch then (p.1, (ch, i) :: p.2.1, p.2.2)
      else (p.1, p.2.1, if ch ∈ p.2.2 then p.2.2 else ch :: p.2.2)
    else (p.1, p.2.1, if ch ∈ p.2.2 then p.2.2 else ch :: p.2.2)

/-- `get_feedback(guess, actual)` (`worldle.py` lines 41-55): returns the
triple `(green, yellow, gray)` — the dict of exact positional matches, the
list of misplaced `(letter, position)` pairs, and the set of letters marked
absent. -/
def get_feedback (guess actual : Word) :
    List (Nat × Char) × List (Char × Nat) × List Char :=
  fb_aux guess actual guess 0

/-- `filter_words(words, green, yellow, gray)` (`worldle.py` lines 58-90):
keeps the words satisfying all green constraints, all yellow constraints,
and, for every gray letter, the negated rejection condition
`char in word and char not in green.values() and all(char != y[0] for y in yellow)`. -/
def filter_words (words : List Word) (green : List (Nat × Char))
    (yellow : List (Char × Nat)) (gray : List Char) : List Word :=
  words.filter fun word =>
    decide ((∀ pc ∈ green, word.getD pc.1 ' ' = pc.2) ∧
      (∀ cp ∈ yellow, cp.1 ∈ word ∧ word.getD cp.2 ' ' ≠ cp.1) ∧
      (∀ c ∈ gray, ¬(c ∈ word ∧ c ∉ green.map Prod.snd ∧ ∀ y ∈ yellow, c ≠ y.1)))

/-- The heuristic weights dict of `worldle.py` (keys `letter`, `bigram`,
`trigram`, `position`, `repeat_penalty`). -/
structure Weights where
  letter : ℚ
  bigram : ℚ
  trigram : ℚ
  position : ℚ
  repeat_penalty : ℚ
deriving DecidableEq

/-- `table.get(k, 0)`: association-list lookup defaulting to `0` on a
missing key. -/
def lookup0 {α : Type} [BEq α] (t : List (α × ℚ)) (k : α) : ℚ :=
  (t.lookup k).getD 0

/-- `score_word(word, letter_probs, bigram_probs, trigram_probs, pos_probs, weights)`
(`worldle.py` lines 93-105).  `set(word)` is modelled by `firstOccs word`
(iteration order of a Python set is irrelevant: only the size of the set and
the sum of looked-up values over it are used). -/
def score_word (word : Word) (letter_probs : List (Char × ℚ))
    (bigram_probs trigram_probs : List (Word × ℚ))
    (pos_probs : List (List (Char × ℚ))) (weights : Weights) : ℚ :=
  let unique_letters := firstOccs word
  let repeat_penalty := if unique_letters.length < 5 then weights.repeat_penalty else 1
  let letter_score := (unique_letters.map fun c => lookup0 letter_probs c).sum
  let bigram_score := ((List.range 4).map fun i => lookup0 bigram_probs ((word.drop i).take 2)).sum
  let trigram_score := ((List.range 3).map fun i => lookup0 trigram_probs ((word.drop i).take 3)).sum
  let position_score := ((List.range 5).map fun i => lookup0 (pos_probs.getD i []) (word.getD i ' ')).sum
  repeat_penalty * (weights.letter * letter_score + weights.bigram * bigram_score +
    weights.trigram * trigram_score + weights.position * position_score)

/-- Which `return` statement of `simulate_game_stats` produced the result;
each corresponds to a distinct printed message in `worldle.py`. -/
inductive ExitTag where
  /-- line 111: "Target word ... is not in the list. Skipping." -/
  | invalidTarget
  /-- line 123: "no possible words left after filtering." -/
  | stuck
  /-- line 132: "No new candidates after filtering." -/
  | noNewCandidates
  /-- line 140: solved, returning the attempt count. -/
  | solved
  /-- line 144: "Gave up ... after 12 attempts." -/
  | exhausted
deriving DecidableEq

/-- The value returned by `simulate_game_stats`: the attempt count (`none`
for an unsolved run, as Python returns `None`), the guess log, and the tag
of the return statement taken. -/
structure SimResult where
  attemptCount : Option Nat
  guessLog : List (Word × Nat)
  exit : ExitTag
deriving DecidableEq

/-- Python `dict.update`: keys already present are overwritten in place,
new keys are appended in iteration order. -/
def dictUpdate (d new : List (Nat × Char)) : List (Nat × Char) :=
  new.foldl (fun acc kv =>
    if kv.1 ∈ acc.map Prod.fst then acc.map fun p => if p.1 = kv.1 then kv else p
    else acc ++ [kv]) d

/-- Python `set.update`: insert each new element unless already present. -/
def setUnion (s new : List Char) : List Char :=
  new.foldl (fun acc c => if c ∈ acc then acc else acc ++ [c]) s

/-- `max_attempts = 12` (`worldle.py` line 115). -/
def max_attempts : Nat := 12

/-- The comparison passed to `sorted(..., key=score_word, reverse=True)`:
`a` may precede `b` exactly when `a`'s score is at least `b`'s. -/
def scoreLE (lp : List (Char × ℚ)) (bp tp : List (Word × ℚ))
    (pp : List (List (Char × ℚ))) (weights : Weights) (a b : Word) : Bool :=
  decide (score_word b lp bp tp pp weights ≤ score_word a lp bp tp pp weights)

/-- The `scored` list of the loop body (`worldle.py` lines 125-128): the
candidates sorted by score descending with Python's stable sort (modelled by
the stable `List.mergeSort`), then those already used filtered out. -/
def rank_candidates (possible_words used_guesses : List Word)
    (lp : List (Char × ℚ)) (bp tp : List (Word × ℚ))
    (pp : List (List (Char × ℚ))) (weights : Weights) : List Word :=
  (possible_words.mergeSort (scoreLE lp bp tp pp weights)).filter
    fun w => decide (w ∉ used_guesses)

/-- The `while True:` loop of `simulate_game_stats` (`worldle.py` lines
120-150).  The fuel starts at `max_attempts` and decreases once per
iteration while `attempts` increases once per iteration, so the fuel-zero
branch is unreachable: the budget check `max_attempts ≤ attempts'` always
returns first. -/
def simLoopF (target : Word) (weights : Weights) (lp : List (Char × ℚ))
    (bp tp : List (Word × ℚ)) (pp : List (List (Char × ℚ))) :
    Nat → List (Nat × Char) → List (Char × Nat) → List Char →
      Nat → List Word → List Word → List (Word × Nat) → SimResult
  | fuel, green, yellow, gray, attempts, possible_words, used_guesses, guess_log =>
    if possible_words = [] then ⟨none, guess_log, .stuck⟩
    else
      match rank_candidates possible_words used_guesses lp bp tp pp weights with
      | [] => ⟨none, guess_log, .noNewCandidates⟩
      | guess :: _ =>
        let used' := if guess ∈ used_guesses then used_guesses else used_guesses ++ [guess]
        let attempts' := attempts + 1
        let log' := guess_log ++ [(guess, possible_words.length)]
        if guess = target then ⟨some attempts', log', .solved⟩
        else if max_attempts ≤ attempts' then ⟨none, log', .exhausted⟩
        else
          match fuel with
          | 0 => ⟨none, log', .exhausted⟩
          | fuel' + 1 =>
            let fb := get_feedback guess target
            let green' := dictUpdate green fb.1
            let yellow' := yellow ++ fb.2.1
            let gray' := setUnion gray fb.2.2
            simLoopF target weights lp bp tp pp fuel' green' yellow' gray' attempts'
              (filter_words possible_words green' yellow' gray') used' log'

/-- `simulate_game_stats(target_word, word_list, weights, ...)`
(`worldle.py` lines 108-150): reject a target that is not in the word list,
otherwise run the solve loop starting from empty constraints, zero
attempts, the full word list as candidates, and empty used-guesses and log. -/
def simulate_game_stats (target : Word) (word_list : List Word)
    (weights : Weights) (lp : List (Char × ℚ)) (bp tp : List (Word × ℚ))
    (pp : List (List (Char × ℚ))) : SimResult :=
  if target ∈ word_list then
    simLoopF target weights lp bp tp pp max_attempts [] [] [] 0 word_list [] []
  else ⟨none, [], .invalidTarget⟩

/-- The running count used by the spec of claim C1: the number of
occurrences of `c` among the first `i + 1` letters of `g` (the scan of the
guess up to and including position `i`). -/
def runningCount (c : Char) (g : Word) (i : Nat) : Nat :=
  (g.take (i + 1)).count c

/-- The score formula as §4.4 of the spec words it: a repeat-penalty factor
applied exactly when the word's letters are not all distinct, times the
weighted sum of the letter score over the distinct letters, the four
contiguous bigram scores, the three contiguous trigram scores, and the five
positional scores, with missing table entries contributing 0. -/
def spec_score (word : Word) (lp : List (Char × ℚ)) (bp tp : List (Word × ℚ))
    (pp : List (List (Char × ℚ))) (weights : Weights) : ℚ :=
  (if word.Nodup then 1 else weights.repeat_penalty) *
    (weights.letter * (word.dedup.map fun c => lookup0 lp c).sum +
     weights.bigram * ((List.range 4).map fun i => lookup0 bp ((word.drop i).take 2)).sum +
     weights.trigram * ((List.range 3).map fun i => lookup0 tp ((word.drop i).take 3)).sum +
     weights.position * ((List.range 5).map fun i => lookup0 (pp.getD i []) (word.getD i ' ')).sum)

/-- Coerce a string literal to the word it denotes. -/
def strW (x : String) : Word := x.toList

lemma mem_foldlIns {α : Type} [DecidableEq α] (l : List α) :
    ∀ (acc : List α) (x : α),
      x ∈ l.foldl (fun acc a => if a ∈ acc then acc else acc ++ [a]) acc ↔
        x ∈ acc ∨ x ∈ l := by
  induction l with
  | nil => intro acc x; simp
  | cons a t ih =>
    intro acc x
    simp only [List.foldl_cons]
    rw [ih]
    by_cases h : a ∈ acc
    · simp only [if_pos h, List.mem_cons]
      constructor
      · rintro (hx | hx)
        · exact Or.inl hx
        · exact Or.inr (Or.inr hx)
      · rintro (hx | hx | hx)
        · exact Or.inl hx
        · exact Or.inl (hx ▸ h)
        · exact Or.inr hx
    · simp only [if_neg h, List.mem_append, List.mem_singleton, List.mem_cons]
      tauto

lemma nodup_foldlIns {α : Type} [DecidableEq α] (l : List α) :
    ∀ acc : List α, acc.Nodup →
      (l.foldl (fun acc a => if a ∈ acc then acc else acc ++ [a]) acc).Nodup := by
  induction l with
  | nil => intro acc h; simpa using h
  | cons a t ih =>
    intro acc h
    simp only [List.foldl_cons]
    by_cases ha : a ∈ acc
    · rw [if_pos ha]; exact ih acc h
    · rw [if_neg ha]
      refine ih _ ?_
      simp [List.nodup_append, h, ha]

lemma mem_firstOccs {α : Type} [DecidableEq α] (l : List α) (x : α) :
    x ∈ firstOccs l ↔ x ∈ l := by
  unfold firstOccs
  rw [mem_foldlIns]
  simp

lemma nodup_firstOccs {α : Type} [DecidableEq α] (l : List α) : (firstOccs l).Nodup :=
  nodup_foldlIns l [] List.nodup_nil

lemma firstOccs_perm_dedup {α : Type} [DecidableEq α] (l : List α) :
    List.Perm (firstOccs l) l.dedup := by
  rw [List.perm_ext_iff_of_nodup (nodup_firstOccs l) l.nodup_dedup]
  intro a
  rw [mem_firstOccs, List.mem_dedup]

/-- C4: for every candidate list and constraint sets, the output of
`filter_words` is a subsequence of its input (hence has length at most the
input's length and preserves the input's relative order), and an empty
input list yields an empty output list. -/
theorem filter_words_sublist (words : List Word) (green : List (Nat × Char))
    (yellow : List (Char × Nat)) (gray : List Char) :
    List.Sublist (filter_words words green yellow gray) words ∧
      (filter_words words green yellow gray).length ≤ words.length ∧
      filter_words [] green yellow gray = [] :=
  ⟨List.filter_sublist words, List.length_filter_le _ words, rfl⟩

/-- Counterexample to C5 as stated: componentwise-larger constraint triples
can strictly enlarge the result of `filter_words`.  With candidates
`["bbbba"]`, growing misplaced from `[]` to `[('a',0)]` (fixed and absent
unchanged) grows the result from `[]` to `["bbbba"]`, because the added
misplaced pair waives the absent check for `'a'`; likewise with candidates
`["abbbb"]`, growing fixed from `{}` to `{0 ↦ 'a'}` grows the result,
because the added fixed letter waives the absent check. -/
theorem filter_words_c5_cex :
    ((filter_words [strW "bbbba"] [] [] ['a']).length = 0 ∧
      (filter_words [strW "bbbba"] [] [('a', 0)] ['a']).length = 1) ∧
    ((filter_words [strW "abbbb"] [] [] ['a']).length = 0 ∧
      (filter_words [strW "abbbb"] [(0, 'a')] [] ['a']).length = 1) := by
  decide

/-- C5 (amended): enlarging only the absent set, with the fixed and
misplaced constraints unchanged, never increases the size of the result of
`filter_words`.  Enlarging the fixed or misplaced constraints can increase
it, because either waives the absent check for the letters they mention. -/
theorem filter_words_gray_antitone (words : List Word) (green : List (Nat × Char))
    (yellow : List (Char × Nat)) (gray gray' : List Char)
    (h : ∀ c ∈ gray, c ∈ gray') :
    (filter_words words green yellow gray').length ≤
      (filter_words words green yellow gray).length := by
  unfold filter_words
  rw [← List.countP_eq_length_filter, ← List.countP_eq_length_filter]
  apply List.countP_mono_left
  intro w _ hpass
  simp only [decide_eq_true_eq] at hpass ⊢
  exact ⟨hpass.1, hpass.2.1, fun c hc => hpass.2.2 c (h c hc)⟩

/-- Witness for `filter_words_gray_antitone` at a concrete input. -/
theorem filter_words_gray_antitone_witness :
    (∀ c ∈ ['a'], c ∈ ['a', 'b']) ∧
      (filter_words [strW "cdcdc"] [] [] ['a', 'b']).length ≤
        (filter_words [strW "cdcdc"] [] [] ['a']).length :=
  ⟨by decide, filter_words_gray_antitone [strW "cdcdc"] [] [] ['a'] ['a', 'b'] (by decide)⟩

/-- Counterexample to C3 as stated: with fixed = `{0 ↦ 'a'}`, no misplaced
pairs, and absent = `{'a'}`, the word "aabbb" is retained by `filter_words`
although `'a'` occurs at position 1 and no fixed or misplaced entry for
`'a'` accounts for position 1 (the only fixed entry sits at position 0 and
there are no misplaced entries), so the claim's retention condition demands
rejection.  The code waives the absent check letter-wise as soon as the
letter appears among the fixed letters. -/
theorem filter_words_c3_cex :
    filter_words [strW "aabbb"] [(0, 'a')] [] ['a'] = [strW "aabbb"] ∧
      (strW "aabbb").getD 1 ' ' = 'a' ∧
      ∀ pc ∈ [((0 : Nat), 'a')], pc.1 ≠ 1 := by
  refine ⟨by decide, rfl, by decide⟩

/-- C3 (amended): `filter_words` retains `w` iff `w` is a candidate, every
fixed pair matches, every misplaced pair has its letter present but not at
the disqualified position, and every absent letter either does not occur in
`w` at all, or is one of the fixed letters, or is the letter of some
misplaced pair — the absent check is waived letter-wise, without regard to
which positions the fixed/misplaced entries account for. -/
theorem filter_words_mem_iff (words : List Word) (green : List (Nat × Char))
    (yellow : List (Char × Nat)) (gray : List Char) (w : Word) :
    w ∈ filter_words words green yellow gray ↔
      w ∈ words ∧ (∀ pc ∈ green, w.getD pc.1 ' ' = pc.2) ∧
        (∀ cp ∈ yellow, cp.1 ∈ w ∧ w.getD cp.2 ' ' ≠ cp.1) ∧
        (∀ c ∈ gray, c ∉ w ∨ c ∈ green.map Prod.snd ∨ ∃ y ∈ yellow, y.1 = c) := by
  unfold filter_words
  rw [List.mem_filter]
  simp only [decide_eq_true_eq]
  constructor
  · rintro ⟨hw, hg, hy, hgr⟩
    refine ⟨hw, hg, hy, fun c hc => ?_⟩
    have hneg := hgr c hc
    by_cases h1 : c ∈ w
    · by_cases h2 : c ∈ green.map Prod.snd
      · exact Or.inr (Or.inl h2)
      · right; right
        by_contra hne
        push_neg at hne
        exact hneg ⟨h1, h2, fun y hy' hk => hne y hy' hk.symm⟩
    · exact Or.inl h1
  · rintro ⟨hw, hg, hy, hgr⟩
    refine ⟨hw, hg, hy, fun c hc => ?_⟩
    rintro ⟨h1, h2, h3⟩
    rcases hgr c hc with h | h | ⟨y, hy', hyc⟩
    · exact h h1
    · exact h2 h
    · exact h3 y hy' hyc.symm

lemma mem_insertOnce {c ch : Char} {r : List Char} :
    c ∈ (if ch ∈ r then r else ch :: r) ↔ c = ch ∨ c ∈ r := by
  by_cases h : ch ∈ r
  · rw [if_pos h]
    constructor
    · exact fun hc => Or.inr hc
    · rintro (rfl | hc)
      · exact h
      · exact hc
  · rw [if_neg h]
    exact List.mem_cons

lemma fb_aux_green_mem (guess actual : Word) :
    ∀ (rest : Word) (i j : Nat) (c : Char),
      ((j, c) ∈ (fb_aux guess actual rest i).1 ↔
        ∃ k, k < rest.length ∧ j = i + k ∧ rest.getD k ' ' = c ∧
          actual.getD j ' ' = c) := by
  intro rest
  induction rest with
  | nil =>
    intro i j c
    simp [fb_aux]
  | cons ch rest ih =>
    intro i j c
    by_cases h1 : actual.getD i ' ' = ch
    · have hfb : (fb_aux guess actual (ch :: rest) i).1 =
          (i, ch) :: (fb_aux guess actual rest (i + 1)).1 := by
        simp only [fb_aux]
        rw [if_pos h1]
      rw [hfb, List.mem_cons, ih (i + 1) j c]
      constructor
      · rintro (heq | ⟨k, hk, hj, hr, ha⟩)
        · injection heq with hj hc
          subst hj
          subst hc
          exact ⟨0, Nat.succ_pos _, by omega, rfl, h1⟩
        · exact ⟨k + 1, by simpa using hk, by omega, by simpa using hr, ha⟩
      · rintro ⟨k, hk, hj, hr, ha⟩
        rcases k with _ | k
        · left
          simp only [List.getD_cons_zero] at hr
          rw [Nat.add_zero] at hj
          subst hj
          subst hr
          rfl
        · right
          exact ⟨k, by simpa using hk, by omega, by simpa using hr, ha⟩
    · have hfb : (fb_aux guess actual (ch :: rest) i).1 =
          (fb_aux guess actual rest (i + 1)).1 := by
        simp only [fb_aux]
        rw [if_neg h1]
        by_cases h2 : ch ∈ actual
        · rw [if_pos h2]
          by_cases h3 : guess.count ch ≤ actual.count ch
          · rw [if_pos h3]
          · rw [if_neg h3]
        · rw [if_neg h2]
      rw [hfb, ih (i + 1) j c]
      constructor
      · rintro ⟨k, hk, hj, hr, ha⟩
        exact ⟨k + 1, by simpa using hk, by omega, by simpa using hr, ha⟩
      · rintro ⟨k, hk, hj, hr, ha⟩
        rcases k with _ | k
        · exfalso
          simp only [List.getD_cons_zero] at hr
          rw [Nat.add_zero] at hj
          subst hj
          subst hr
          exact h1 ha
        · exact ⟨k, by simpa using hk, by omega, by simpa using hr, ha⟩

lemma fb_aux_yellow_mem (guess actual : Word) :
    ∀ (rest : Word) (i j : Nat) (c : Char),
      ((c, j) ∈ (fb_aux guess actual rest i).2.1 ↔
        ∃ k, k < rest.length ∧ j = i + k ∧ rest.getD k ' ' = c ∧
          actual.getD j ' ' ≠ c ∧ c ∈ actual ∧
          guess.count c ≤ actual.count c) := by
  intro rest
  induction rest with
  | nil =>
    intro i j c
    simp [fb_aux]
  | cons ch rest ih =>
    intro i j c
    by_cases h1 : actual.getD i ' ' = ch
    · have hfb : (fb_aux guess actual (ch :: rest) i).2.1 =
          (fb_aux guess actual rest (i + 1)).2.1 := by
        simp only [fb_aux]
        rw [if_pos h1]
      rw [hfb, ih (i + 1) j c]
      constructor
      · rintro ⟨k, hk, hj, hr, ha, hm, hc⟩
        exact ⟨k + 1, by simpa using hk, by omega, by simpa using hr, ha, hm, hc⟩
      · rintro ⟨k, hk, hj, hr, ha, hm, hc⟩
        rcases k with _ | k
        · exfalso
          simp only [List.getD_cons_zero] at hr
          rw [Nat.add_zero] at hj
          subst hj
          subst hr
          exact ha h1
        · exact ⟨k, by simpa using hk, by omega, by simpa using hr, ha, hm, hc⟩
    · by_cases h2 : ch ∈ actual
      · by_cases h3 : guess.count ch ≤ actual.count ch
        · have hfb : (fb_aux guess actual (ch :: rest) i).2.1 =
              (ch, i) :: (fb_aux guess actual rest (i + 1)).2.1 := by
            simp only [fb_aux]
            rw [if_neg h1, if_pos h2, if_pos h3]
          rw [hfb, List.mem_cons, ih (i + 1) j c]
          constructor
          · rintro (heq | ⟨k, hk, hj, hr, ha, hm, hc⟩)
            · injection heq with hc hj
              subst hj
              subst hc
              exact ⟨0, Nat.succ_pos _, by omega, rfl, fun hh => h1 hh, h2, h3⟩
            · exact ⟨k + 1, by simpa using hk, by omega, by simpa using hr, ha, hm, hc⟩
          · rintro ⟨k, hk, hj, hr, ha, hm, hc⟩
            rcases k with _ | k
            · left
              simp only [List.getD_cons_zero] at hr
              rw [Nat.add_zero] at hj
              subst hj
              subst hr
              rfl
            · right
              exact ⟨k, by simpa using hk, by omega, by simpa using hr, ha, hm, hc⟩
        · have hfb : (fb_aux guess actual (ch :: rest) i).2.1 =
              (fb_aux guess actual rest (i + 1)).2.1 := by
            simp only [fb_aux]
            rw [if_neg h1, if_pos h2, if_neg h3]
          rw [hfb, ih (i + 1) j c]
          constructor
          · rintro ⟨k, hk, hj, hr, ha, hm, hc⟩
            exact ⟨k + 1, by simpa using hk, by omega, by simpa using hr, ha, hm, hc⟩
          · rintro ⟨k, hk, hj, hr, ha, hm, hc⟩
            rcases k with _ | k
            · exfalso
              simp only [List.getD_cons_zero] at hr
              subst hr
              exact h3 hc
            · exact ⟨k, by simpa using hk, by omega, by simpa using hr, ha, hm, hc⟩
      · have hfb : (fb_aux guess actual (ch :: rest) i).2.1 =
            (fb_aux guess actual rest (i + 1)).2.1 := by
          simp only [fb_aux]
          rw [if_neg h1, if_neg h2]
        rw [hfb, ih (i + 1) j c]
        constructor
        · rintro ⟨k, hk, hj, hr, ha, hm, hc⟩
          exact ⟨k + 1, by simpa using hk, by omega, by simpa using hr, ha, hm, hc⟩
        · rintro ⟨k, hk, hj, hr, ha, hm, hc⟩
          rcases k with _ | k
          · exfalso
            simp only [List.getD_cons_zero] at hr
            subst hr
            exact h2 hm
          · exact ⟨k, by simpa using hk, by omega, by simpa using hr, ha, hm, hc⟩

lemma fb_aux_gray_mem (guess actual : Word) :
    ∀ (rest : Word) (i : Nat) (c : Char),
      (c ∈ (fb_aux guess actual rest i).2.2 ↔
        ∃ k, k < rest.length ∧ rest.getD k ' ' = c ∧
          actual.getD (i + k) ' ' ≠ c ∧
          (c ∉ actual ∨ actual.count c < guess.count c)) := by
  intro rest
  induction rest with
  | nil =>
    intro i c
    simp [fb_aux]
  | cons ch rest ih =>
    intro i c
    by_cases h1 : actual.getD i ' ' = ch
    · have hfb : (fb_aux guess actual (ch :: rest) i).2.2 =
          (fb_aux guess actual rest (i + 1)).2.2 := by
        simp only [fb_aux]
        rw [if_pos h1]
      rw [hfb, ih (i + 1) c]
      constructor
      · rintro ⟨k, hk, hr, ha, hd⟩
        exact ⟨k + 1, by simpa using hk, by simpa using hr, by rw [show i + (k + 1) = i + 1 + k by omega]; exact ha, hd⟩
      · rintro ⟨k, hk, hr, ha, hd⟩
        rcases k with _ | k
        · exfalso
          simp only [List.getD_cons_zero] at hr
          rw [Nat.add_zero] at ha
          subst hr
          exact ha h1
        · exact ⟨k, by simpa using hk, by simpa using hr, by rw [show i + 1 + k = i + (k + 1) by omega]; exact ha, hd⟩
    · by_cases h2 : ch ∈ actual
      · by_cases h3 : guess.count ch ≤ actual.count ch
        · have hfb : (fb_aux guess actual (ch :: rest) i).2.2 =
              (fb_aux guess actual rest (i + 1)).2.2 := by
            simp only [fb_aux]
            rw [if_neg h1, if_pos h2, if_pos h3]
          rw [hfb, ih (i + 1) c]
          constructor
          · rintro ⟨k, hk, hr, ha, hd⟩
            exact ⟨k + 1, by simpa using hk, by simpa using hr, by rw [show i + (k + 1) = i + 1 + k by omega]; exact ha, hd⟩
          · rintro ⟨k, hk, hr, ha, hd⟩
            rcases k with _ | k
            · exfalso
              simp only [List.getD_cons_zero] at hr
              subst hr
              rcases hd with hd | hd
              · exact hd h2
              · omega
            · exact ⟨k, by simpa using hk, by simpa using hr, by rw [show i + 1 + k = i + (k + 1) by omega]; exact ha, hd⟩
        · have hfb : (fb_aux guess actual (ch :: rest) i).2.2 =
              (if ch ∈ (fb_aux guess actual rest (i + 1)).2.2
                then (fb_aux guess actual rest (i + 1)).2.2
                else ch :: (fb_aux guess actual rest (i + 1)).2.2) := by
            simp only [fb_aux]
            rw [if_neg h1, if_pos h2, if_neg h3]
          rw [hfb, mem_insertOnce, ih (i + 1) c]
          constructor
          · rintro (rfl | ⟨k, hk, hr, ha, hd⟩)
            · exact ⟨0, Nat.succ_pos _, rfl, by rw [Nat.add_zero]; exact fun hh => h1 hh, Or.inr (by omega)⟩
            · exact ⟨k + 1, by simpa using hk, by simpa using hr, by rw [show i + (k + 1) = i + 1 + k by omega]; exact ha, hd⟩
          · rintro ⟨k, hk, hr, ha, hd⟩
            rcases k with _ | k
            · left
              simp only [List.getD_cons_zero] at hr
              exact hr.symm
            · right
              exact ⟨k, by simpa using hk, by simpa using hr, by rw [show i + 1 + k = i + (k + 1) by omega]; exact ha, hd⟩
      · have hfb : (fb_aux guess actual (ch :: rest) i).2.2 =
            (if ch ∈ (fb_aux guess actual rest (i + 1)).2.2
              then (fb_aux guess actual rest (i + 1)).2.2
              else ch :: (fb_aux guess actual rest (i + 1)).2.2) := by
          simp only [fb_aux]
          rw [if_neg h1, if_neg h2]
        rw [hfb, mem_insertOnce, ih (i + 1) c]
        constructor
        · rintro (rfl | ⟨k, hk, hr, ha, hd⟩)
          · exact ⟨0, Nat.succ_pos _, rfl, by rw [Nat.add_zero]; exact fun hh => h1 hh, Or.inl h2⟩
          · exact ⟨k + 1, by simpa using hk, by simpa using hr, by rw [show i + (k + 1) = i + 1 + k by omega]; exact ha, hd⟩
        · rintro ⟨k, hk, hr, ha, hd⟩
          rcases k with _ | k
          · left
            simp only [List.getD_cons_zero] at hr
            exact hr.symm
          · right
            exact ⟨k, by simpa using hk, by simpa using hr, by rw [show i + 1 + k = i + (k + 1) by omega]; exact ha, hd⟩

lemma green_mem_iff (guess actual : Word) (j : Nat) (c : Char) :
    (j, c) ∈ (get_feedback guess actual).1 ↔
      j < guess.length ∧ guess.getD j ' ' = c ∧ actual.getD j ' ' = c := by
  unfold get_feedback
  rw [fb_aux_green_mem]
  constructor
  · rintro ⟨k, hk, hj, hr, ha⟩
    rw [Nat.zero_add] at hj
    subst hj
    exact ⟨hk, hr, ha⟩
  · rintro ⟨hj, hr, ha⟩
    exact ⟨j, hj, (Nat.zero_add j).symm, hr, ha⟩

lemma yellow_mem_iff (guess actual : Word) (j : Nat) (c : Char) :
    (c, j) ∈ (get_feedback guess actual).2.1 ↔
      j < guess.length ∧ guess.getD j ' ' = c ∧ actual.getD j ' ' ≠ c ∧
        c ∈ actual ∧ guess.count c ≤ actual.count c := by
  unfold get_feedback
  rw [fb_aux_yellow_mem]
  constructor
  · rintro ⟨k, hk, hj, hr, ha, hm, hc⟩
    rw [Nat.zero_add] at hj
    subst hj
    exact ⟨hk, hr, ha, hm, hc⟩
  · rintro ⟨hj, hr, ha, hm, hc⟩
    exact ⟨j, hj, (Nat.zero_add j).symm, hr, ha, hm, hc⟩

lemma gray_mem_iff (guess actual : Word) (c : Char) :
    c ∈ (get_feedback guess actual).2.2 ↔
      ∃ j, j < guess.length ∧ guess.getD j ' ' = c ∧ actual.getD j ' ' ≠ c ∧
        (c ∉ actual ∨ actual.count c < guess.count c) := by
  unfold get_feedback
  rw [fb_aux_gray_mem]
  constructor
  · rintro ⟨k, hk, hr, ha, hd⟩
    rw [Nat.zero_add] at ha
    exact ⟨k, hk, hr, ha, hd⟩
  · rintro ⟨j, hj, hr, ha, hd⟩
    refine ⟨j, hj, hr, ?_, hd⟩
    rw [Nat.zero_add]
    exact ha

/-- Counterexample to C1 as stated: guess "xaayz" against target "abcde"
(equal length, one copy of 'a' in the target, two copies in the guess,
neither an exact positional match).  The occurrence of 'a' at position 1 is
not an exact match, 'a' occurs in the target, and its running count within
the guess up to position 1 (namely 1) does not exceed the total count of
'a' in the target (namely 1), so the claim requires that occurrence to be
classified misplaced and, overall, exactly one of the two occurrences to be
signaled present.  `get_feedback` instead returns empty green and yellow
components and puts 'a' in the gray set: both occurrences are classified
absent, because the code compares the total count of 'a' in the whole guess
(2) against the target count (1) instead of the running count. -/
theorem get_feedback_c1_cex :
    (get_feedback (strW "xaayz") (strW "abcde")).1 = [] ∧
      (get_feedback (strW "xaayz") (strW "abcde")).2.1 = [] ∧
      'a' ∈ (get_feedback (strW "xaayz") (strW "abcde")).2.2 ∧
      (strW "xaayz").getD 1 ' ' = 'a' ∧
      (strW "abcde").getD 1 ' ' ≠ 'a' ∧
      'a' ∈ strW "abcde" ∧
      runningCount 'a' (strW "xaayz") 1 ≤ (strW "abcde").count 'a' ∧
      (strW "xaayz").length = (strW "abcde").length := by
  decide

/-- C1 (amended): for equal-length guess and target, `get_feedback`
classifies an occurrence of letter `c` at position `i` that is not an exact
positional match as misplaced exactly when `c` occurs in the target and the
total count of `c` in the whole guess does not exceed the total count of
`c` in the target, and as absent otherwise (the code never consults the
left-to-right running count).  Consequently, for a target with one copy of
a letter and a guess with two copies, the two occurrences are never both
signaled present, but if neither is an exact positional match both are
signaled absent. -/
theorem get_feedback_dup_rule (guess actual : Word)
    (h : guess.length = actual.length) :
    (∀ (i : Nat) (c : Char),
      (c, i) ∈ (get_feedback guess actual).2.1 ↔
        i < guess.length ∧ guess.getD i ' ' = c ∧ actual.getD i ' ' ≠ c ∧
          c ∈ actual ∧ guess.count c ≤ actual.count c) ∧
    (∀ c : Char,
      c ∈ (get_feedback guess actual).2.2 ↔
        ∃ i, i < guess.length ∧ guess.getD i ' ' = c ∧ actual.getD i ' ' ≠ c ∧
          (c ∉ actual ∨ actual.count c < guess.count c)) :=
  ⟨fun i c => yellow_mem_iff guess actual i c, fun c => gray_mem_iff guess actual c⟩

/-- Witness for `get_feedback_dup_rule`: guess "aabbb" against target
"ababa" are of equal length. -/
theorem get_feedback_dup_rule_witness :
    (strW "aabbb").length = (strW "ababa").length ∧
      ((∀ (i : Nat) (c : Char),
        (c, i) ∈ (get_feedback (strW "aabbb") (strW "ababa")).2.1 ↔
          i < (strW "aabbb").length ∧ (strW "aabbb").getD i ' ' = c ∧
            (strW "ababa").getD i ' ' ≠ c ∧ c ∈ strW "ababa" ∧
            (strW "aabbb").count c ≤ (strW "ababa").count c) ∧
      (∀ c : Char,
        c ∈ (get_feedback (strW "aabbb") (strW "ababa")).2.2 ↔
          ∃ i, i < (strW "aabbb").length ∧ (strW "aabbb").getD i ' ' = c ∧
            (strW "ababa").getD i ' ' ≠ c ∧
            (c ∉ strW "ababa" ∨ (strW "ababa").count c < (strW "aabbb").count c))) :=
  ⟨rfl, get_feedback_dup_rule (strW "aabbb") (strW "ababa") rfl⟩

lemma fb_aux_green_yellow_countP (guess actual : Word) (L : Char) :
    ∀ (rest : Word) (i : Nat),
      ((fb_aux guess actual rest i).1.countP fun p => decide (p.2 = L)) +
          ((fb_aux guess actual rest i).2.1.countP fun p => decide (p.1 = L)) ≤
        rest.count L := by
  intro rest
  induction rest with
  | nil => intro i; simp [fb_aux]
  | cons ch rest ih =>
    intro i
    have hcount : (ch :: rest).count L = rest.count L + (if ch = L then 1 else 0) := by
      rw [List.count_cons]
      simp [beq_iff_eq]
    have hrec := ih (i + 1)
    by_cases h1 : actual.getD i ' ' = ch
    · have hfbg : (fb_aux guess actual (ch :: rest) i).1 =
          (i, ch) :: (fb_aux guess actual rest (i + 1)).1 := by
        simp only [fb_aux]
        rw [if_pos h1]
      have hfby : (fb_aux guess actual (ch :: rest) i).2.1 =
          (fb_aux guess actual rest (i + 1)).2.1 := by
        simp only [fb_aux]
        rw [if_pos h1]
      rw [hfbg, hfby, hcount]
      simp only [List.countP_cons]
      by_cases hL : ch = L <;> simp [hL] <;> omega
    · by_cases h2 : ch ∈ actual
      · by_cases h3 : guess.count ch ≤ actual.count ch
        · have hfbg : (fb_aux guess actual (ch :: rest) i).1 =
              (fb_aux guess actual rest (i + 1)).1 := by
            simp only [fb_aux]
            rw [if_neg h1, if_pos h2, if_pos h3]
          have hfby : (fb_aux guess actual (ch :: rest) i).2.1 =
              (ch, i) :: (fb_aux guess actual rest (i + 1)).2.1 := by
            simp only [fb_aux]
            rw [if_neg h1, if_pos h2, if_pos h3]
          rw [hfbg, hfby, hcount]
          simp only [List.countP_cons]
          by_cases hL : ch = L <;> simp [hL] <;> omega
        · have hfbg : (fb_aux guess actual (ch :: rest) i).1 =
              (fb_aux guess actual rest (i + 1)).1 := by
            simp only [fb_aux]
            rw [if_neg h1, if_pos h2, if_neg h3]
          have hfby : (fb_aux guess actual (ch :: rest) i).2.1 =
              (fb_aux guess actual rest (i + 1)).2.1 := by
            simp only [fb_aux]
            rw [if_neg h1, if_pos h2, if_neg h3]
          rw [hfbg, hfby, hcount]
          omega
      · have hfbg : (fb_aux guess actual (ch :: rest) i).1 =
            (fb_aux guess actual rest (i + 1)).1 := by
          simp only [fb_aux]
          rw [if_neg h1, if_neg h2]
        have hfby : (fb_aux guess actual (ch :: rest) i).2.1 =
            (fb_aux guess actual rest (i + 1)).2.1 := by
          simp only [fb_aux]
          rw [if_neg h1, if_neg h2]
        rw [hfbg, hfby, hcount]
        omega

lemma fb_aux_green_countP_le (guess actual : Word) (L : Char) :
    ∀ (rest : Word) (i : Nat), i + rest.length ≤ actual.length →
      ((fb_aux guess actual rest i).1.countP fun p => decide (p.2 = L)) ≤
        (actual.drop i).count L := by
  intro rest
  induction rest with
  | nil => intro i hi; simp [fb_aux]
  | cons ch rest ih =>
    intro i hi
    have hi1 : i < actual.length := by
      simp only [List.length_cons] at hi
      omega
    have hdrop : actual.drop i = actual[i] :: actual.drop (i + 1) :=
      List.drop_eq_getElem_cons hi1
    have hgetD : actual.getD i ' ' = actual[i] := List.getD_eq_getElem actual ' ' hi1
    have hrec := ih (i + 1) (by simp only [List.length_cons] at hi; omega)
    have hcount : (actual.drop i).count L =
        (actual.drop (i + 1)).count L + (if actual[i] = L then 1 else 0) := by
      rw [hdrop, List.count_cons]
      simp [beq_iff_eq]
    by_cases h1 : actual.getD i ' ' = ch
    · have hfbg : (fb_aux guess actual (ch :: rest) i).1 =
          (i, ch) :: (fb_aux guess actual rest (i + 1)).1 := by
        simp only [fb_aux]
        rw [if_pos h1]
      have hch : actual[i] = ch := by rw [← hgetD, h1]
      rw [hfbg, hcount, hch]
      simp only [List.countP_cons]
      by_cases hL : ch = L <;> simp [hL] <;> omega
    · have hfbg : (fb_aux guess actual (ch :: rest) i).1 =
          (fb_aux guess actual rest (i + 1)).1 := by
        simp only [fb_aux]
        rw [if_neg h1]
        by_cases h2 : ch ∈ actual
        · by_cases h3 : guess.count ch ≤ actual.count ch
          · rw [if_pos h2, if_pos h3]
          · rw [if_pos h2, if_neg h3]
        · rw [if_neg h2]
      rw [hfbg, hcount]
      omega

/-- C2: for every guess and target of equal length, `get_feedback` assigns
every letter occurrence of the guess to exactly one of the three
classifications (fixed: its position/letter pair is in the green dict;
misplaced: its letter/position pair is in the yellow list; absent: neither,
and the letter is in the gray set), and for every letter `L` the number of
occurrences classified fixed plus the number classified misplaced never
exceeds the number of occurrences of `L` in the target. -/
theorem get_feedback_classification (guess actual : Word)
    (h : guess.length = actual.length) :
    (∀ i, i < guess.length →
      (((i, guess.getD i ' ') ∈ (get_feedback guess actual).1 ∧
          (guess.getD i ' ', i) ∉ (get_feedback guess actual).2.1) ∨
        ((i, guess.getD i ' ') ∉ (get_feedback guess actual).1 ∧
          (guess.getD i ' ', i) ∈ (get_feedback guess actual).2.1) ∨
        ((i, guess.getD i ' ') ∉ (get_feedback guess actual).1 ∧
          (guess.getD i ' ', i) ∉ (get_feedback guess actual).2.1 ∧
          guess.getD i ' ' ∈ (get_feedback guess actual).2.2))) ∧
    ∀ L : Char,
      ((get_feedback guess actual).1.countP fun p => decide (p.2 = L)) +
          ((get_feedback guess actual).2.1.countP fun p => decide (p.1 = L)) ≤
        actual.count L := by
  constructor
  · intro i hi
    by_cases hA : actual.getD i ' ' = guess.getD i ' '
    · left
      constructor
      · rw [green_mem_iff]
        exact ⟨hi, rfl, hA⟩
      · rw [yellow_mem_iff]
        rintro ⟨_, _, hne, _⟩
        exact hne hA
    · by_cases hB : guess.getD i ' ' ∈ actual ∧
          guess.count (guess.getD i ' ') ≤ actual.count (guess.getD i ' ')
      · right
        left
        constructor
        · rw [green_mem_iff]
          rintro ⟨_, _, ha⟩
          exact hA ha
        · rw [yellow_mem_iff]
          exact ⟨hi, rfl, hA, hB.1, hB.2⟩
      · right
        right
        refine ⟨?_, ?_, ?_⟩
        · rw [green_mem_iff]
          rintro ⟨_, _, ha⟩
          exact hA ha
        · rw [yellow_mem_iff]
          rintro ⟨_, _, _, hm, hcnt⟩
          exact hB ⟨hm, hcnt⟩
        · rw [gray_mem_iff]
          refine ⟨i, hi, rfl, hA, ?_⟩
          by_cases hm : guess.getD i ' ' ∈ actual
          · right
            have hcnt : ¬ guess.count (guess.getD i ' ') ≤
                actual.count (guess.getD i ' ') := fun hcnt => hB ⟨hm, hcnt⟩
            omega
          · exact Or.inl hm
  · intro L
    by_cases hy : 0 < ((get_feedback guess actual).2.1.countP fun p => decide (p.1 = L))
    · rw [List.countP_pos_iff] at hy
      obtain ⟨p, hp, hpL⟩ := hy
      obtain ⟨c, j⟩ := p
      simp only [decide_eq_true_eq] at hpL
      subst hpL
      obtain ⟨-, -, -, -, hcnt⟩ := (yellow_mem_iff guess actual j c).mp hp
      have htot := fb_aux_green_yellow_countP guess actual c guess 0
      unfold get_feedback
      omega
    · have hy0 : ((get_feedback guess actual).2.1.countP
          fun p => decide (p.1 = L)) = 0 := by omega
      have hg := fb_aux_green_countP_le guess actual L guess 0 (by omega)
      rw [List.drop_zero] at hg
      unfold get_feedback
      unfold get_feedback at hy0
      omega

/-- Witness for `get_feedback_classification`: guess "aabbb" and target
"ababa" have equal length. -/
theorem get_feedback_classification_witness :
    (strW "aabbb").length = (strW "ababa").length ∧
      ((∀ i, i < (strW "aabbb").length →
        (((i, (strW "aabbb").getD i ' ') ∈ (get_feedback (strW "aabbb") (strW "ababa")).1 ∧
            ((strW "aabbb").getD i ' ', i) ∉ (get_feedback (strW "aabbb") (strW "ababa")).2.1) ∨
          ((i, (strW "aabbb").getD i ' ') ∉ (get_feedback (strW "aabbb") (strW "ababa")).1 ∧
            ((strW "aabbb").getD i ' ', i) ∈ (get_feedback (strW "aabbb") (strW "ababa")).2.1) ∨
          ((i, (strW "aabbb").getD i ' ') ∉ (get_feedback (strW "aabbb") (strW "ababa")).1 ∧
            ((strW "aabbb").getD i ' ', i) ∉ (get_feedback (strW "aabbb") (strW "ababa")).2.1 ∧
            (strW "aabbb").getD i ' ' ∈ (get_feedback (strW "aabbb") (strW "ababa")).2.2))) ∧
      ∀ L : Char,
        ((get_feedback (strW "aabbb") (strW "ababa")).1.countP fun p => decide (p.2 = L)) +
            ((get_feedback (strW "aabbb") (strW "ababa")).2.1.countP fun p => decide (p.1 = L)) ≤
          (strW "ababa").count L) :=
  ⟨rfl, get_feedback_classification (strW "aabbb") (strW "ababa") rfl⟩

/-- C6: for every 5-letter word and every frequency tables and weights,
`score_word` returns the spec's formula: a repeat-penalty factor applied
exactly when the word's letters are not all distinct (and 1 otherwise)
times the weighted sum of the letter score over the word's distinct letters
(duplicates counted once), the 4 contiguous bigram scores, the 3 contiguous
trigram scores, and the 5 positional scores, with missing table entries
contributing 0. -/
theorem score_word_formula (word : Word) (lp : List (Char × ℚ))
    (bp tp : List (Word × ℚ)) (pp : List (List (Char × ℚ)))
    (weights : Weights) (h : word.length = 5) :
    score_word word lp bp tp pp weights = spec_score word lp bp tp pp weights := by
  have hperm := firstOccs_perm_dedup word
  have hsum : ((firstOccs word).map fun c => lookup0 lp c).sum =
      (word.dedup.map fun c => lookup0 lp c).sum :=
    (hperm.map _).sum_eq
  have hlen : (firstOccs word).length = word.dedup.length := hperm.length_eq
  simp only [score_word, spec_score]
  rw [hsum]
  by_cases hnd : word.Nodup
  · have hded : word.dedup = word := List.dedup_eq_self.mpr hnd
    have hge : ¬ (firstOccs word).length < 5 := by
      rw [hlen, hded, h]
      omega
    rw [if_neg hge, if_pos hnd]
  · have hlt : word.dedup.length < 5 := by
      have hle : word.dedup.length ≤ word.length := (List.dedup_sublist word).length_le
      rcases Nat.lt_or_ge word.dedup.length word.length with hl | hg
      · omega
      · exfalso
        have heq : word.dedup = word :=
          (List.dedup_sublist word).eq_of_length (by omega)
        exact hnd (heq ▸ word.nodup_dedup)
    rw [if_pos (by rw [hlen]; omega), if_neg hnd]

/-- Witness for `score_word_formula`: the word "aabcd" has length 5 (and a
repeated letter, so the penalty branch is exercised). -/
theorem score_word_formula_witness :
    (strW "aabcd").length = 5 ∧
      score_word (strW "aabcd") [('a', (1 : ℚ)/2)] [] [] [] ⟨1, 1, 1, 1, (1 : ℚ)/2⟩ =
        spec_score (strW "aabcd") [('a', (1 : ℚ)/2)] [] [] [] ⟨1, 1, 1, 1, (1 : ℚ)/2⟩ :=
  ⟨rfl, score_word_formula (strW "aabcd") [('a', (1 : ℚ)/2)] [] [] []
    ⟨1, 1, 1, 1, (1 : ℚ)/2⟩ rfl⟩

/-- C8: for every target word not present in the word list,
`simulate_game_stats` rejects the target before starting the solve: it
returns an unsolved result (no attempt count) with an empty guess log,
through the invalid-target return, having issued no guesses. -/
theorem simulate_invalid_target (target : Word) (word_list : List Word)
    (weights : Weights) (lp : List (Char × ℚ)) (bp tp : List (Word × ℚ))
    (pp : List (List (Char × ℚ))) (h : target ∉ word_list) :
    simulate_game_stats target word_list weights lp bp tp pp =
      ⟨none, [], .invalidTarget⟩ := by
  unfold simulate_game_stats
  rw [if_neg h]

/-- Witness for `simulate_invalid_target`: the target "zzzzz" is not in the
one-word list ["aaaaa"]. -/
theorem simulate_invalid_target_witness :
    strW "zzzzz" ∉ [strW "aaaaa"] ∧
      simulate_game_stats (strW "zzzzz") [strW "aaaaa"] ⟨1, 1, 1, 1, 1⟩ [] [] [] [] =
        ⟨none, [], .invalidTarget⟩ :=
  ⟨by decide, simulate_invalid_target (strW "zzzzz") [strW "aaaaa"]
    ⟨1, 1, 1, 1, 1⟩ [] [] [] [] (by decide)⟩

/-- Counterexample to C9 as stated: with the empty corpus as word list,
`simulate_game_stats` returns through the invalid-target precondition check
(the target cannot be a member of the empty list), not through the STUCK
(empty-candidate-pool) return: the claimed outcome `stuck` differs from the
actual outcome `invalidTarget`. -/
theorem simulate_empty_corpus_cex :
    (simulate_game_stats (strW "stale") [] ⟨1, 1/2, 1/4, 3/4, 9/10⟩ [] [] [] []).exit =
      ExitTag.invalidTarget ∧ ExitTag.invalidTarget ≠ ExitTag.stuck :=
  ⟨rfl, by decide⟩

/-- C9 (amended): for the empty corpus the statistics builders return
all-empty tables without error, `score_word` over those empty tables
returns 0 for every word and weights, and `simulate_game_stats` run with
the empty corpus as word list immediately returns the unsolved
invalid-target outcome (no attempt count, empty guess log) from its
precondition check, never reaching the solve loop's STUCK branch. -/
theorem empty_corpus_behaviour :
    get_letter_probs [] = [] ∧
      (∀ n, get_ngram_probs [] n = []) ∧
      get_positional_probs [] = [[], [], [], [], []] ∧
      (∀ (word : Word) (weights : Weights),
        score_word word (get_letter_probs []) (get_ngram_probs [] 2)
          (get_ngram_probs [] 3) (get_positional_probs []) weights = 0) ∧
      (∀ (target : Word) (weights : Weights) (lp : List (Char × ℚ))
        (bp tp : List (Word × ℚ)) (pp : List (List (Char × ℚ))),
        simulate_game_stats target [] weights lp bp tp pp =
          ⟨none, [], .invalidTarget⟩) := by
  refine ⟨rfl, fun n => rfl, rfl, ?_, ?_⟩
  · intro word weights
    show score_word word [] [] [] [[], [], [], [], []] weights = 0
    have h1 : ((firstOccs word).map fun c => lookup0 ([] : List (Char × ℚ)) c).sum = 0 := by
      apply List.sum_eq_zero
      intro x hx
      rcases List.mem_map.mp hx with ⟨c, -, rfl⟩
      rfl
    have h2 : ((List.range 4).map fun i =>
        lookup0 ([] : List (Word × ℚ)) ((word.drop i).take 2)).sum = 0 := by
      apply List.sum_eq_zero
      intro x hx
      rcases List.mem_map.mp hx with ⟨i, -, rfl⟩
      rfl
    have h3 : ((List.range 3).map fun i =>
        lookup0 ([] : List (Word × ℚ)) ((word.drop i).take 3)).sum = 0 := by
      apply List.sum_eq_zero
      intro x hx
      rcases List.mem_map.mp hx with ⟨i, -, rfl⟩
      rfl
    have h4 : ((List.range 5).map fun i =>
        lookup0 (([[], [], [], [], []] : List (List (Char × ℚ))).getD i [])
          (word.getD i ' ')).sum = 0 := by
      apply List.sum_eq_zero
      intro x hx
      rcases List.mem_map.mp hx with ⟨i, hi, rfl⟩
      have hi5 : i < 5 := List.mem_range.mp hi
      interval_cases i <;> rfl
    simp only [score_word]
    rw [h1, h2, h3, h4]
    ring
  · intro target weights lp bp tp pp
    unfold simulate_game_stats
    rw [if_neg (List.not_mem_nil target)]

lemma simLoopF_invariant (target : Word) (weights : Weights) (lp : List (Char × ℚ))
    (bp tp : List (Word × ℚ)) (pp : List (List (Char × ℚ))) :
    ∀ (fuel : Nat) (green : List (Nat × Char)) (yellow : List (Char × Nat))
      (gray : List Char) (attempts : Nat) (possible used : List Word)
      (log : List (Word × Nat)),
      log.length = attempts → attempts < max_attempts →
      ((simLoopF target weights lp bp tp pp fuel green yellow gray attempts possible used log).guessLog.length ≤ max_attempts ∧
        ∀ n, (simLoopF target weights lp bp tp pp fuel green yellow gray attempts possible used log).attemptCount = some n →
          n = (simLoopF target weights lp bp tp pp fuel green yellow gray attempts possible used log).guessLog.length ∧
          ∃ m, (simLoopF target weights lp bp tp pp fuel green yellow gray attempts possible used log).guessLog.getLast? = some (target, m)) := by
  intro fuel
  induction fuel with
  | zero =>
    intro green yellow gray attempts possible used log hlen hlt
    rw [simLoopF]
    by_cases hp : possible = []
    · rw [if_pos hp]
      refine ⟨?_, ?_⟩
      · show log.length ≤ max_attempts
        rw [hlen]
        exact hlt.le
      · intro n hn
        simp at hn
    · rw [if_neg hp]
      rcases hr : rank_candidates possible used lp bp tp pp weights with _ | ⟨guess, rest⟩
      · dsimp only
        refine ⟨?_, ?_⟩
        · show log.length ≤ max_attempts
          rw [hlen]
          exact hlt.le
        · intro n hn
          simp at hn
      · dsimp only
        by_cases hg : guess = target
        · rw [if_pos hg]
          refine ⟨?_, ?_⟩
          · show (log ++ [(guess, possible.length)]).length ≤ max_attempts
            rw [List.length_append, hlen]
            exact hlt
          · intro n hn
            simp only [Option.some.injEq] at hn
            subst hn
            subst hg
            refine ⟨by rw [List.length_append, hlen]; rfl, possible.length, ?_⟩
            exact List.getLast?_concat log
        · rw [if_neg hg]
          by_cases hb : max_attempts ≤ attempts + 1
          · rw [if_pos hb]
            refine ⟨?_, ?_⟩
            · show (log ++ [(guess, possible.length)]).length ≤ max_attempts
              rw [List.length_append, hlen]
              exact hlt
            · intro n hn
              simp at hn
          · rw [if_neg hb]
            refine ⟨?_, ?_⟩
            · show (log ++ [(guess, possible.length)]).length ≤ max_attempts
              rw [List.length_append, hlen]
              exact hlt
            · intro n hn
              simp at hn
  | succ fuel ih =>
    intro green yellow gray attempts possible used log hlen hlt
    rw [simLoopF]
    by_cases hp : possible = []
    · rw [if_pos hp]
      refine ⟨?_, ?_⟩
      · show log.length ≤ max_attempts
        rw [hlen]
        exact hlt.le
      · intro n hn
        simp at hn
    · rw [if_neg hp]
      rcases hr : rank_candidates possible used lp bp tp pp weights with _ | ⟨guess, rest⟩
      · dsimp only
        refine ⟨?_, ?_⟩
        · show log.length ≤ max_attempts
          rw [hlen]
          exact hlt.le
        · intro n hn
          simp at hn
      · dsimp only
        by_cases hg : guess = target
        · rw [if_pos hg]
          refine ⟨?_, ?_⟩
          · show (log ++ [(guess, possible.length)]).length ≤ max_attempts
            rw [List.length_append, hlen]
            exact hlt
          · intro n hn
            simp only [Option.some.injEq] at hn
            subst hn
            subst hg
            refine ⟨by rw [List.length_append, hlen]; rfl, possible.length, ?_⟩
            exact List.getLast?_concat log
        · rw [if_neg hg]
          by_cases hb : max_attempts ≤ attempts + 1
          · rw [if_pos hb]
            refine ⟨?_, ?_⟩
            · show (log ++ [(guess, possible.length)]).length ≤ max_attempts
              rw [List.length_append, hlen]
              exact hlt
            · intro n hn
              simp at hn
          · rw [if_neg hb]
            exact ih _ _ _ (attempts + 1) _ _ _
              (by rw [List.length_append, hlen]; rfl)
              (by omega)

/-- C7: for every target word in the word list and every weights and
statistics tables, `simulate_game_stats` reaches a terminal state after at
most `max_attempts` (12) loop iterations — its guess log records at most 12
issued guesses — and whenever it returns a solved result the returned
attempt count equals the number of guesses issued and the last guess issued
equals the target exactly. -/
theorem simulate_terminates (target : Word) (word_list : List Word)
    (weights : Weights) (lp : List (Char × ℚ)) (bp tp : List (Word × ℚ))
    (pp : List (List (Char × ℚ))) (h : target ∈ word_list) :
    (simulate_game_stats target word_list weights lp bp tp pp).guessLog.length ≤
        max_attempts ∧
      ∀ n, (simulate_game_stats target word_list weights lp bp tp pp).attemptCount =
          some n →
        n = (simulate_game_stats target word_list weights lp bp tp pp).guessLog.length ∧
        ∃ m, (simulate_game_stats target word_list weights lp bp tp pp).guessLog.getLast? =
          some (target, m) := by
  unfold simulate_game_stats
  rw [if_pos h]
  exact simLoopF_invariant target weights lp bp tp pp max_attempts [] [] [] 0
    word_list [] [] rfl (by norm_num [max_attempts])

/-- Witness for `simulate_terminates`: the target "ab" is in the two-word
list (words need not be five letters long for the loop itself). -/
theorem simulate_terminates_witness :
    strW "ab" ∈ [strW "ab", strW "cd"] ∧
      ((simulate_game_stats (strW "ab") [strW "ab", strW "cd"]
          ⟨0, 0, 0, 0, 0⟩ [] [] [] []).guessLog.length ≤ max_attempts ∧
        ∀ n, (simulate_game_stats (strW "ab") [strW "ab", strW "cd"]
            ⟨0, 0, 0, 0, 0⟩ [] [] [] []).attemptCount = some n →
          n = (simulate_game_stats (strW "ab") [strW "ab", strW "cd"]
              ⟨0, 0, 0, 0, 0⟩ [] [] [] []).guessLog.length ∧
          ∃ m, (simulate_game_stats (strW "ab") [strW "ab", strW "cd"]
              ⟨0, 0, 0, 0, 0⟩ [] [] [] []).guessLog.getLast? = some (strW "ab", m)) :=
  ⟨by decide, simulate_terminates (strW "ab") [strW "ab", strW "cd"]
    ⟨0, 0, 0, 0, 0⟩ [] [] [] [] (by decide)⟩

lemma scoreLE_trans (lp : List (Char × ℚ)) (bp tp : List (Word × ℚ))
    (pp : List (List (Char × ℚ))) (weights : Weights) :
    ∀ a b c : Word, scoreLE lp bp tp pp weights a b →
      scoreLE lp bp tp pp weights b c → scoreLE lp bp tp pp weights a c := by
  intro a b c hab hbc
  simp only [scoreLE, decide_eq_true_eq] at hab hbc ⊢
  exact le_trans hbc hab

lemma scoreLE_total (lp : List (Char × ℚ)) (bp tp : List (Word × ℚ))
    (pp : List (List (Char × ℚ))) (weights : Weights) :
    ∀ a b : Word, scoreLE lp bp tp pp weights a b || scoreLE lp bp tp pp weights b a := by
  intro a b
  simp only [scoreLE, Bool.or_eq_true, decide_eq_true_eq]
  exact le_total _ _

/-- C10: `simulate_game_stats` is a deterministic function of its inputs —
two runs on equal inputs agree on the attempt count, on the guess log entry
by entry, and on the exit outcome.  Moreover the candidate ranking behind
each guess is by score with a stable sort: whenever the ranking produces a
first candidate, that candidate is an unused possible word of maximal
score, and two candidates of equal score keep, in the sorted list, the
relative order they had in the candidate list (which the stable filter
inherits from the word list). -/
theorem simulate_deterministic :
    (∀ (t₁ t₂ : Word) (wl₁ wl₂ : List Word) (w₁ w₂ : Weights)
        (lp₁ lp₂ : List (Char × ℚ)) (bp₁ bp₂ tp₁ tp₂ : List (Word × ℚ))
        (pp₁ pp₂ : List (List (Char × ℚ))),
        t₁ = t₂ → wl₁ = wl₂ → w₁ = w₂ → lp₁ = lp₂ → bp₁ = bp₂ → tp₁ = tp₂ →
        pp₁ = pp₂ →
        (simulate_game_stats t₁ wl₁ w₁ lp₁ bp₁ tp₁ pp₁).attemptCount =
            (simulate_game_stats t₂ wl₂ w₂ lp₂ bp₂ tp₂ pp₂).attemptCount ∧
          (∀ k, (simulate_game_stats t₁ wl₁ w₁ lp₁ bp₁ tp₁ pp₁).guessLog.get? k =
            (simulate_game_stats t₂ wl₂ w₂ lp₂ bp₂ tp₂ pp₂).guessLog.get? k) ∧
          (simulate_game_stats t₁ wl₁ w₁ lp₁ bp₁ tp₁ pp₁).exit =
            (simulate_game_stats t₂ wl₂ w₂ lp₂ bp₂ tp₂ pp₂).exit) ∧
    (∀ (possible used : List Word) (lp : List (Char × ℚ)) (bp tp : List (Word × ℚ))
        (pp : List (List (Char × ℚ))) (weights : Weights) (g : Word) (rest : List Word),
        rank_candidates possible used lp bp tp pp weights = g :: rest →
        g ∈ possible ∧ g ∉ used ∧
          ∀ w ∈ possible, w ∉ used →
            score_word w lp bp tp pp weights ≤ score_word g lp bp tp pp weights) ∧
    ∀ (possible : List Word) (lp : List (Char × ℚ)) (bp tp : List (Word × ℚ))
      (pp : List (List (Char × ℚ))) (weights : Weights) (a b : Word),
      score_word a lp bp tp pp weights = score_word b lp bp tp pp weights →
      List.Sublist [a, b] possible →
      List.Sublist [a, b] (possible.mergeSort (scoreLE lp bp tp pp weights)) := by
  refine ⟨?_, ?_, ?_⟩
  · intro t₁ t₂ wl₁ wl₂ w₁ w₂ lp₁ lp₂ bp₁ bp₂ tp₁ tp₂ pp₁ pp₂ h1 h2 h3 h4 h5 h6 h7
    subst h1; subst h2; subst h3; subst h4; subst h5; subst h6; subst h7
    exact ⟨rfl, fun k => rfl, rfl⟩
  · intro possible used lp bp tp pp weights g rest hr
    have hpairMS : (possible.mergeSort (scoreLE lp bp tp pp weights)).Pairwise
        (fun a b => scoreLE lp bp tp pp weights a b) :=
      List.sorted_mergeSort (scoreLE_trans lp bp tp pp weights)
        (scoreLE_total lp bp tp pp weights) possible
    have hpair : (rank_candidates possible used lp bp tp pp weights).Pairwise
        (fun a b => scoreLE lp bp tp pp weights a b) :=
      hpairMS.sublist (List.filter_sublist _)
    rw [hr] at hpair
    have hgrest := (List.pairwise_cons.mp hpair).1
    have hgmem : g ∈ rank_candidates possible used lp bp tp pp weights := by
      rw [hr]
      exact List.mem_cons_self g rest
    unfold rank_candidates at hgmem
    rcases List.mem_filter.mp hgmem with ⟨hgms, hgused⟩
    refine ⟨List.mem_mergeSort.mp hgms, of_decide_eq_true hgused, ?_⟩
    intro w hw hwused
    have hwrank : w ∈ rank_candidates possible used lp bp tp pp weights := by
      unfold rank_candidates
      exact List.mem_filter.mpr ⟨List.mem_mergeSort.mpr hw, decide_eq_true hwused⟩
    rw [hr] at hwrank
    rcases List.mem_cons.mp hwrank with rfl | hwrest
    · exact le_refl _
    · have hle := hgrest w hwrest
      simp only [scoreLE, decide_eq_true_eq] at hle
      exact hle
  · intro possible lp bp tp pp weights a b heq hsub
    have hpair : List.Pairwise (fun x y => scoreLE lp bp tp pp weights x y = true) [a, b] := by
      rw [List.pairwise_cons]
      refine ⟨?_, ?_⟩
      · intro y hy
        rcases List.mem_singleton.mp hy with rfl
        simp only [scoreLE, decide_eq_true_eq]
        exact heq.ge
      · rw [List.pairwise_cons]
        exact ⟨fun y hy => absurd hy (List.not_mem_nil y), List.Pairwise.nil⟩
    exact List.sublist_mergeSort (scoreLE_trans lp bp tp pp weights)
      (scoreLE_total lp bp tp pp weights) hpair hsub
